import Mathlib

/-!
Shallow embedding of `core/store/src/trie/trie_storage.rs`:
the dual-tier trie node cache (`TrieCache` / `SyncTrieCache`), the caching
storage facade (`TrieCachingStorage`), the recording storage
(`TrieRecordingStorage`) and the replay storage (`TrieMemoryPartStorage`,
named `TrieMemoryPartialStorage` in the source).

Modelling conventions:
- byte strings are `List Nat`;
- `CryptoHash` and `ShardUId` are wrappers around their byte representation
  (their internals live in `near_primitives`, outside this repository slice;
  the spec fixes them to 32 and 8 bytes respectively);
- `lru::LruCache` is a most-recently-used-first association list bounded by
  `take cap`; `HashMap` is an association list under `insertA`/`removeA`;
- the `Mutex` around `TrieCache` is respected by threading the state
  explicitly: each operation takes the cache state and returns the new one;
- `Store::get` is a function from the 40-byte key to
  `Except Unit (Option Bytes)` (`Except.error` = internal store failure,
  `Except.ok none` = key absent).
-/

/-- Byte strings (`Vec<u8>` / `&[u8]`). -/
abbrev Bytes := List Nat

/-- Content hash key (`near_primitives::hash::CryptoHash`, a 32-byte value).
Modelled from the spec: equality is byte-exact; claims carry the 32-byte
length where it matters. -/
structure CryptoHash where
  bytes : Bytes
deriving DecidableEq, Repr

/-- Shard identifier (`near_primitives::shard_layout::ShardUId`).
Modelled from the spec: a fixed-size 8-byte identifier; `to_bytes` is its
byte representation. -/
structure ShardUId where
  bytes : Bytes
deriving DecidableEq, Repr

/-- Modelled from the spec: `ShardUId::to_bytes`, the 8-byte representation. -/
def ShardUId.to_bytes (s : ShardUId) : Bytes := s.bytes

/-- Modelled from the spec: `ShardUId::try_from(&[u8])`, which succeeds
exactly on 8-byte inputs. -/
def ShardUId.try_from (bs : Bytes) : Option ShardUId :=
  if bs.length = 8 then some ⟨bs⟩ else none

/-- Modelled from the spec: `CryptoHash::try_from(&[u8])`, which succeeds
exactly on 32-byte inputs. -/
def CryptoHash.try_from (bs : Bytes) : Option CryptoHash :=
  if bs.length = 32 then some ⟨bs⟩ else none

/-- Association-list lookup (first entry with the given key). -/
def lookupA : List (CryptoHash × Bytes) → CryptoHash → Option Bytes
  | [], _ => none
  | (k, v) :: t, h => if k = h then some v else lookupA t h

/-- Remove every entry with the given key. -/
def removeA : List (CryptoHash × Bytes) → CryptoHash → List (CryptoHash × Bytes)
  | [], _ => []
  | (k, v) :: t, h => if k = h then removeA t h else (k, v) :: removeA t h

/-- `HashMap::insert`: bind the key to the value (old binding dropped). -/
def insertA (l : List (CryptoHash × Bytes)) (h : CryptoHash) (v : Bytes) :
    List (CryptoHash × Bytes) :=
  (h, v) :: removeA l h

/-- `HashSet::insert` on a duplicate-free list. -/
def insertSet (l : List CryptoHash) (h : CryptoHash) : List CryptoHash :=
  if h ∈ l then l else h :: l

/-- `lru::LruCache::get`: on a hit, the entry is moved to the
most-recently-used position. -/
def lru_get (l : List (CryptoHash × Bytes)) (h : CryptoHash) :
    Option Bytes × List (CryptoHash × Bytes) :=
  match lookupA l h with
  | some v => (some v, (h, v) :: removeA l h)
  | none => (none, l)

/-- `lru::LruCache::put` with capacity `cap`: insert at the
most-recently-used position, evicting from the least-recently-used end
when over capacity. -/
def lru_put (cap : Nat) (l : List (CryptoHash × Bytes)) (h : CryptoHash) (v : Bytes) :
    List (CryptoHash × Bytes) :=
  List.take cap ((h, v) :: removeA l h)

/-- `lru::LruCache::pop`: remove the entry, returning its value. -/
def lru_pop (l : List (CryptoHash × Bytes)) (h : CryptoHash) :
    Option Bytes × List (CryptoHash × Bytes) :=
  (lookupA l h, removeA l h)

/-- `enum CacheState { CachingShard, CachingChunk }`. -/
inductive CacheState where
  | CachingShard
  | CachingChunk
deriving DecidableEq, Repr

/-- `pub enum RetrievalCost { Free, Full }`. -/
inductive RetrievalCost where
  | Free
  | Full
deriving DecidableEq, Repr

/-- `enum CachePosition { None, ShardCache(Vec<u8>), ChunkCache(Vec<u8>) }`. -/
inductive CachePosition where
  | NotCached
  | ShardCache (v : Bytes)
  | ChunkCache (v : Bytes)
deriving DecidableEq, Repr

/-- `StorageError` (the variants used in this file). -/
inductive StorageError where
  | StorageInternalError
  | TrieNodeMissing
  | StorageInconsistentState (msg : String)
deriving DecidableEq, Repr

/-- `TRIE_MAX_CACHE_SIZE`: 100000 normally, 1 under the `no_cache` feature. -/
def TRIE_MAX_CACHE_SIZE (no_cache : Bool) : Nat :=
  if no_cache then 1 else 100000

/-- `TRIE_LIMIT_CACHED_VALUE_SIZE`: values of at least this many bytes are
never cached. -/
def TRIE_LIMIT_CACHED_VALUE_SIZE : Nat := 1000

/-- `struct TrieCache`: the mode flag and the two tiers.  The shard tier is
an LRU bounded by `cap` (the capacity baked into `LruCache::new`); the chunk
tier is an unbounded map. -/
structure TrieCache where
  cache_state : CacheState
  shard_cache : List (CryptoHash × Bytes)
  chunk_cache : List (CryptoHash × Bytes)
  cap : Nat
deriving DecidableEq, Repr

namespace TrieCache

/-- `TrieCache::get_cache_position`: chunk tier first, then the shard tier
(whose `get` refreshes recency on a hit). -/
def get_cache_position (c : TrieCache) (h : CryptoHash) : CachePosition × TrieCache :=
  match lookupA c.chunk_cache h with
  | some v => (CachePosition.ChunkCache v, c)
  | none =>
    match lru_get c.shard_cache h with
    | (some v, shard) => (CachePosition.ShardCache v, { c with shard_cache := shard })
    | (none, _) => (CachePosition.NotCached, c)

/-- `TrieCache::chargeable_get`: absent gives `(None, Full)`; a chunk-tier
hit gives `(Some, Free)`; a shard-tier hit gives `(Some, Full)` and, in
`CachingChunk` mode, promotes the entry into the chunk tier. -/
def chargeable_get (c : TrieCache) (h : CryptoHash) :
    (Option Bytes × RetrievalCost) × TrieCache :=
  match get_cache_position c h with
  | (CachePosition.NotCached, c1) => ((none, RetrievalCost.Full), c1)
  | (CachePosition.ChunkCache v, c1) => ((some v, RetrievalCost.Free), c1)
  | (CachePosition.ShardCache v, c1) =>
    let c2 :=
      match c1.cache_state with
      | CacheState.CachingChunk =>
        match lru_pop c1.shard_cache h with
        | (some pv, shard) =>
          { c1 with shard_cache := shard, chunk_cache := insertA c1.chunk_cache h pv }
        | (none, shard) =>
          -- the `.expect` in the source: unreachable when position is ShardCache
          { c1 with shard_cache := shard }
      | CacheState.CachingShard => c1
    ((some v, RetrievalCost.Full), c2)

/-- `TrieCache::put`: too-large values are never cached; in `CachingChunk`
mode the value goes to the chunk tier (evicting any shard-tier entry);
otherwise an existing chunk-tier entry is overwritten in place, else the
value goes to the shard-tier LRU. -/
def put (c : TrieCache) (h : CryptoHash) (v : Bytes) : TrieCache :=
  if TRIE_LIMIT_CACHED_VALUE_SIZE ≤ v.length then c
  else
    match c.cache_state with
    | CacheState.CachingChunk =>
      { c with shard_cache := (lru_pop c.shard_cache h).2,
               chunk_cache := insertA c.chunk_cache h v }
    | CacheState.CachingShard =>
      if (lookupA c.chunk_cache h).isSome then
        { c with chunk_cache := insertA c.chunk_cache h v }
      else
        { c with shard_cache := lru_put c.cap c.shard_cache h v }

/-- `TrieCache::pop`: remove from the chunk tier if present, else from the
shard tier. -/
def pop (c : TrieCache) (h : CryptoHash) : Option Bytes × TrieCache :=
  match lookupA c.chunk_cache h with
  | some v => (some v, { c with chunk_cache := removeA c.chunk_cache h })
  | none =>
    match lru_pop c.shard_cache h with
    | (r, shard) => (r, { c with shard_cache := shard })

/-- `TrieCache::drain_chunk_cache`: move every chunk-tier entry into the
shard-tier LRU and empty the chunk tier. -/
def drain_chunk_cache (c : TrieCache) : TrieCache :=
  { c with
    shard_cache := List.foldl (fun s p => lru_put c.cap s p.1 p.2) c.shard_cache c.chunk_cache,
    chunk_cache := [] }

/-- `SyncTrieCache::new`: mode `CachingShard`, empty tiers, shard capacity
`TRIE_MAX_CACHE_SIZE` (1 when the `no_cache` feature is on). -/
def new (no_cache : Bool) : TrieCache :=
  { cache_state := CacheState.CachingShard,
    shard_cache := [],
    chunk_cache := [],
    cap := TRIE_MAX_CACHE_SIZE no_cache }

/-- `SyncTrieCache::clear`: reset the mode to `CachingShard` and empty both
tiers. -/
def clear (c : TrieCache) : TrieCache :=
  { c with cache_state := CacheState.CachingShard, shard_cache := [], chunk_cache := [] }

/-- `SyncTrieCache::flip_caching_chunk_state`: toggle the mode. -/
def flip_caching_chunk_state (c : TrieCache) : TrieCache :=
  { c with cache_state :=
      match c.cache_state with
      | CacheState.CachingShard => CacheState.CachingChunk
      | CacheState.CachingChunk => CacheState.CachingShard }

/-- `SyncTrieCache::update_cache`: apply a batch of store-level ops.
`decode` is the external `decode_value_with_rc` contract (spec section 6):
an optional payload plus a reference count. -/
def update_cache (decode : Bytes → Option Bytes × Int) :
    TrieCache → List (CryptoHash × Option Bytes) → TrieCache
  | c, [] => c
  | c, (h, some raw) :: t =>
    match (decode raw).1 with
    | some v => update_cache decode (c.put h v) t
    | none => update_cache decode (c.pop h).2 t
  | c, (h, none) :: t => update_cache decode (c.pop h).2 t

end TrieCache

/-- `TrieCachingStorage::prepare_trie_cache`: reset the mode to
`CachingShard` and drain the chunk tier. -/
def prepare_trie_cache (c : TrieCache) : TrieCache :=
  TrieCache.drain_chunk_cache { c with cache_state := CacheState.CachingShard }

/-- A sequence of operations on one `SyncTrieCache`, as exposed by its
public interface (plus the facade-level drain). -/
inductive CacheOp where
  | put (h : CryptoHash) (v : Bytes)
  | pop (h : CryptoHash)
  | get (h : CryptoHash)
  | drain
  | flip
  | clear
  | batch (ops : List (CryptoHash × Option Bytes))

/-- Run one cache operation (the mutex serialises them, so state passing is
exact). -/
def runOp (decode : Bytes → Option Bytes × Int) (c : TrieCache) : CacheOp → TrieCache
  | CacheOp.put h v => c.put h v
  | CacheOp.pop h => (c.pop h).2
  | CacheOp.get h => (c.chargeable_get h).2
  | CacheOp.drain => c.drain_chunk_cache
  | CacheOp.flip => c.flip_caching_chunk_state
  | CacheOp.clear => c.clear
  | CacheOp.batch ops => c.update_cache decode ops

/-- Run a sequence of cache operations in order. -/
def runOps (decode : Bytes → Option Bytes × Int) (ops : List CacheOp) (c : TrieCache) :
    TrieCache :=
  List.foldl (runOp decode) c ops

/-- Tier exclusivity: no hash is present in both tiers at once. -/
def TierExclusive (c : TrieCache) : Prop :=
  ∀ h : CryptoHash, lookupA c.chunk_cache h = none ∨ lookupA c.shard_cache h = none

/-- `TrieCachingStorage::get_key_from_shard_uid_and_hash`: the 40-byte store
key, 8 bytes of shard identifier followed by the 32-byte hash. -/
def get_key_from_shard_uid_and_hash (su : ShardUId) (h : CryptoHash) : Bytes :=
  su.to_bytes ++ h.bytes

/-- `TrieCachingStorage::get_shard_uid_and_hash_from_key`: reject any key
whose length is not 40, otherwise split it and convert the two halves (the
`unwrap`s in the source; the fallback branch is unreachable). -/
def get_shard_uid_and_hash_from_key (key : Bytes) : Option (ShardUId × CryptoHash) :=
  if key.length = 40 then
    match ShardUId.try_from (key.take 8), CryptoHash.try_from (key.drop 8) with
    | some id, some h => some (id, h)
    | _, _ => none
  else none

/-- `TrieCachingStorage::chargeable_retrieve_raw_bytes`: serve from the
cache when possible, otherwise query the store at the encoded key; a hit is
`put` into the cache, a store miss is `StorageInconsistentState`, a store
failure is `StorageInternalError`. -/
def chargeable_retrieve_raw_bytes (store : Bytes → Except Unit (Option Bytes))
    (su : ShardUId) (c : TrieCache) (h : CryptoHash) :
    Except StorageError (Bytes × RetrievalCost) × TrieCache :=
  match TrieCache.chargeable_get c h with
  | ((some val, cost), c1) => (Except.ok (val, cost), c1)
  | ((none, _), c1) =>
    match store (get_key_from_shard_uid_and_hash su h) with
    | Except.error _ => (Except.error StorageError.StorageInternalError, c1)
    | Except.ok none =>
      (Except.error (StorageError.StorageInconsistentState "Trie node missing"), c1)
    | Except.ok (some val) =>
      (Except.ok (val, RetrievalCost.Full), TrieCache.put c1 h val)

namespace TrieRecordingStorage

/-- `TrieRecordingStorage::retrieve_raw_bytes`: an already-recorded hash is
served from the record; otherwise the store is queried at the encoded key
(the third component counts store queries made by this call: 0 or 1); a
store hit is recorded, a store miss is `StorageInconsistentState`. -/
def retrieve_raw_bytes (store : Bytes → Except Unit (Option Bytes))
    (su : ShardUId) (recorded : List (CryptoHash × Bytes)) (h : CryptoHash) :
    Except StorageError Bytes × List (CryptoHash × Bytes) × Nat :=
  match lookupA recorded h with
  | some v => (Except.ok v, recorded, 0)
  | none =>
    match store (get_key_from_shard_uid_and_hash su h) with
    | Except.error _ => (Except.error StorageError.StorageInternalError, recorded, 1)
    | Except.ok none =>
      (Except.error (StorageError.StorageInconsistentState "Trie node missing"), recorded, 1)
    | Except.ok (some v) => (Except.ok v, insertA recorded h v, 1)

/-- Run a sequence of recording resolutions, returning the final record set
and the total number of store queries made. -/
def run (store : Bytes → Except Unit (Option Bytes)) (su : ShardUId)
    (recorded : List (CryptoHash × Bytes)) : List CryptoHash →
    List (CryptoHash × Bytes) × Nat
  | [] => (recorded, 0)
  | h :: t =>
    let r := retrieve_raw_bytes store su recorded h
    let rest := run store su r.2.1 t
    (rest.1, r.2.2 + rest.2)

end TrieRecordingStorage

/-- Number of distinct hashes in a list. -/
def countDistinct (hs : List CryptoHash) : Nat :=
  (List.foldl insertSet [] hs).length

namespace TrieMemoryPartStorage

/-- `TrieMemoryPartialStorage::retrieve_raw_bytes`: serve from the fixed
record set; a hit is added to the visited set, a miss is `TrieNodeMissing`
and leaves the visited set unchanged. -/
def retrieve_raw_bytes (recorded_storage : List (CryptoHash × Bytes))
    (visited : List CryptoHash) (h : CryptoHash) :
    Except StorageError Bytes × List CryptoHash :=
  match lookupA recorded_storage h with
  | some v => (Except.ok v, insertSet visited h)
  | none => (Except.error StorageError.TrieNodeMissing, visited)

/-- Visited set after a sequence of resolutions. -/
def runVisited (recorded_storage : List (CryptoHash × Bytes))
    (visited : List CryptoHash) : List CryptoHash → List CryptoHash
  | [] => visited
  | h :: t => runVisited recorded_storage (retrieve_raw_bytes recorded_storage visited h).2 t

end TrieMemoryPartStorage

/-- The shard-tier insertion fold performed by `drain_chunk_cache`. -/
def foldPut (cap : Nat) (s t : List (CryptoHash × Bytes)) : List (CryptoHash × Bytes) :=
  List.foldl (fun acc p => lru_put cap acc p.1 p.2) s t

/-- A reachable cache state with capacity 1 (the `no_cache` configuration)
and two chunk-tier entries. -/
def drainExampleState : TrieCache :=
  ((TrieCache.new true).flip_caching_chunk_state.put ⟨[1]⟩ [1]).put ⟨[2]⟩ [2]

/-- A reachable cache state with capacity 1 and one chunk-tier entry. -/
def drainSmallState : TrieCache :=
  (TrieCache.new true).flip_caching_chunk_state.put ⟨[1]⟩ [1]

/-- A sequence of `put` operations applied in order. -/
def runPuts (c : TrieCache) (ps : List (CryptoHash × Bytes)) : TrieCache :=
  List.foldl (fun acc p => acc.put p.1 p.2) c ps

/-- A store in which every key is absent. -/
def storeNone : Bytes → Except Unit (Option Bytes) := fun _ => Except.ok none

/-- A store that always fails internally. -/
def storeFail : Bytes → Except Unit (Option Bytes) := fun _ => Except.error ()

/-- A store in which every key holds the payload `[7]`. -/
def storeSome : Bytes → Except Unit (Option Bytes) := fun _ => Except.ok (some [7])

section ListLemmas

lemma lookupA_cons (a : CryptoHash) (b : Bytes) (t : List (CryptoHash × Bytes))
    (x : CryptoHash) :
    lookupA ((a, b) :: t) x = if a = x then some b else lookupA t x := rfl

lemma lookupA_removeA (l : List (CryptoHash × Bytes)) (k x : CryptoHash) :
    lookupA (removeA l k) x = if x = k then none else lookupA l x := by
  induction l with
  | nil => simp [removeA, lookupA]
  | cons p t ih =>
    obtain ⟨a, b⟩ := p
    simp only [removeA, lookupA]
    by_cases hak : a = k
    · rw [if_pos hak, ih]
      rcases eq_or_ne x k with hxk | hxk
      · simp [hxk]
      · have hax : a ≠ x := by
          rw [hak]
          exact fun hh => hxk hh.symm
        simp [hxk, hax]
    · rw [if_neg hak]
      rcases eq_or_ne a x with hax | hax
      · have hxk : x ≠ k := fun hh => hak (hax.trans hh)
        simp [lookupA, hax, hxk]
      · simp [lookupA, hax, ih]

lemma removeA_eq_self (l : List (CryptoHash × Bytes)) (k : CryptoHash)
    (h : lookupA l k = none) : removeA l k = l := by
  induction l with
  | nil => rfl
  | cons p t ih =>
    obtain ⟨a, b⟩ := p
    rw [lookupA_cons] at h
    by_cases hak : a = k
    · simp [hak] at h
    · simp only [removeA, if_neg hak]
      rw [if_neg hak] at h
      rw [ih h]

lemma lookupA_insertA (l : List (CryptoHash × Bytes)) (h : CryptoHash) (v : Bytes)
    (x : CryptoHash) :
    lookupA (insertA l h v) x = if h = x then some v else lookupA l x := by
  rw [insertA, lookupA_cons, lookupA_removeA]
  rcases eq_or_ne h x with hhx | hhx
  · simp [hhx]
  · have hxh : x ≠ h := fun hh => hhx hh.symm
    simp [hhx, hxh]

lemma lookupA_take_mono (l : List (CryptoHash × Bytes)) (x : CryptoHash) (v : Bytes) :
    ∀ n m : Nat, n ≤ m → lookupA (l.take n) x = some v → lookupA (l.take m) x = some v := by
  induction l with
  | nil => intro n m _ hl; simp [lookupA] at hl
  | cons p t ih =>
    intro n m hnm hl
    obtain ⟨a, b⟩ := p
    cases n with
    | zero => simp [lookupA] at hl
    | succ k =>
      cases m with
      | zero => omega
      | succ j =>
        rw [List.take_succ_cons, lookupA_cons] at hl ⊢
        by_cases hax : a = x
        · rwa [if_pos hax] at hl ⊢
        · rw [if_neg hax] at hl ⊢
          exact ih k j (Nat.succ_le_succ_iff.mp hnm) hl

lemma lookupA_of_take (l : List (CryptoHash × Bytes)) (x : CryptoHash) (v : Bytes)
    (n : Nat) (hl : lookupA (l.take n) x = some v) : lookupA l x = some v := by
  have := lookupA_take_mono l x v n (n + l.length) (Nat.le_add_right n _) hl
  rwa [List.take_of_length_le (Nat.le_add_left _ _)] at this

lemma lookupA_take_none (l : List (CryptoHash × Bytes)) (x : CryptoHash) (n : Nat)
    (hl : lookupA l x = none) : lookupA (l.take n) x = none := by
  induction l generalizing n with
  | nil => simp [lookupA]
  | cons p t ih =>
    obtain ⟨a, b⟩ := p
    cases n with
    | zero => simp [lookupA]
    | succ k =>
      rw [List.take_succ_cons, lookupA_cons]
      rw [lookupA_cons] at hl
      by_cases hax : a = x
      · simp [hax] at hl
      · rw [if_neg hax] at hl ⊢
        exact ih k hl

lemma lookupA_take_removeA (l : List (CryptoHash × Bytes)) (x k : CryptoHash) (v : Bytes)
    (hxk : x ≠ k) :
    ∀ n : Nat, lookupA (l.take n) x = some v →
      lookupA ((removeA l k).take n) x = some v := by
  induction l with
  | nil => intro n hl; simp [lookupA] at hl
  | cons p t ih =>
    intro n hl
    obtain ⟨a, b⟩ := p
    cases n with
    | zero => simp [lookupA] at hl
    | succ m =>
      rw [List.take_succ_cons, lookupA_cons] at hl
      by_cases hak : a = k
      · rw [if_neg (by rw [hak]; exact fun hh => hxk hh.symm)] at hl
        simp only [removeA, if_pos hak]
        exact lookupA_take_mono _ x v m (m + 1) (Nat.le_succ m) (ih m hl)
      · simp only [removeA, if_neg hak]
        rw [List.take_succ_cons, lookupA_cons]
        by_cases hax : a = x
        · rwa [if_pos hax] at hl ⊢
        · rw [if_neg hax] at hl ⊢
          exact ih m hl

lemma take_append_take (x : List (CryptoHash × Bytes)) (m : Nat) :
    ∀ (l : List (CryptoHash × Bytes)) (n : Nat), n ≤ m →
      List.take n (l ++ List.take m x) = List.take n (l ++ x) := by
  intro l
  induction l with
  | nil =>
    intro n hnm
    simp [List.take_take, Nat.min_eq_left hnm]
  | cons p t ih =>
    intro n hnm
    cases n with
    | zero => simp
    | succ k =>
      simp only [List.cons_append, List.take_succ_cons]
      rw [ih k (le_trans (Nat.le_succ k) hnm)]

lemma lookupA_eq_none_iff (l : List (CryptoHash × Bytes)) (k : CryptoHash) :
    lookupA l k = none ↔ k ∉ l.map Prod.fst := by
  induction l with
  | nil => simp [lookupA]
  | cons p t ih =>
    obtain ⟨a, b⟩ := p
    rw [lookupA_cons, List.map_cons]
    by_cases hak : a = k
    · simp [hak]
    · rw [if_neg hak, ih]
      simp only [List.mem_cons]
      constructor
      · intro hnot hh
        rcases hh with h1 | h2
        · exact hak h1.symm
        · exact hnot h2
      · intro hnot hh
        exact hnot (Or.inr hh)

lemma lookupA_eq_some_of_mem (l : List (CryptoHash × Bytes)) (k : CryptoHash) (v : Bytes)
    (hnd : (l.map Prod.fst).Nodup) (hmem : (k, v) ∈ l) : lookupA l k = some v := by
  induction l with
  | nil => simp at hmem
  | cons p t ih =>
    obtain ⟨a, b⟩ := p
    rw [List.map_cons, List.nodup_cons] at hnd
    rw [lookupA_cons]
    rcases List.mem_cons.mp hmem with heq | hmem'
    · rw [Prod.mk.injEq] at heq
      simp [heq.1.symm, heq.2]
    · have hak : a ≠ k := by
        intro hh
        exact hnd.1 (hh ▸ (List.mem_map.mpr ⟨(k, v), hmem', rfl⟩))
      rw [if_neg hak]
      exact ih hnd.2 hmem'

lemma lookupA_isSome_iff (l : List (CryptoHash × Bytes)) (k : CryptoHash) :
    (lookupA l k).isSome ↔ k ∈ l.map Prod.fst := by
  rcases hl : lookupA l k with _ | v
  · simp [(lookupA_eq_none_iff l k).mp hl]
  · simp only [Option.isSome_some, true_iff]
    by_contra hmem
    rw [← lookupA_eq_none_iff] at hmem
    rw [hmem] at hl
    exact Option.noConfusion hl

lemma mem_insertSet (l : List CryptoHash) (h x : CryptoHash) :
    x ∈ insertSet l h ↔ x = h ∨ x ∈ l := by
  rw [insertSet]
  by_cases hm : h ∈ l
  · rw [if_pos hm]
    constructor
    · exact Or.inr
    · rintro (rfl | hx)
      · exact hm
      · exact hx
  · rw [if_neg hm]
    simp

end ListLemmas

section ChargeableGet

lemma removeA_removeA (l : List (CryptoHash × Bytes)) (k : CryptoHash) :
    removeA (removeA l k) k = removeA l k :=
  removeA_eq_self _ _ (by rw [lookupA_removeA]; simp)

lemma chargeable_get_absent (c : TrieCache) (h : CryptoHash)
    (h1 : lookupA c.chunk_cache h = none) (h2 : lookupA c.shard_cache h = none) :
    c.chargeable_get h = ((none, RetrievalCost.Full), c) := by
  simp only [TrieCache.chargeable_get, TrieCache.get_cache_position, lru_get, h1, h2]

lemma chargeable_get_chunk (c : TrieCache) (h : CryptoHash) (v : Bytes)
    (h1 : lookupA c.chunk_cache h = some v) :
    c.chargeable_get h = ((some v, RetrievalCost.Free), c) := by
  simp only [TrieCache.chargeable_get, TrieCache.get_cache_position, h1]

lemma chargeable_get_shard_promote (c : TrieCache) (h : CryptoHash) (v : Bytes)
    (hmode : c.cache_state = CacheState.CachingChunk)
    (h1 : lookupA c.chunk_cache h = none) (h2 : lookupA c.shard_cache h = some v) :
    c.chargeable_get h =
      ((some v, RetrievalCost.Full),
       { c with shard_cache := removeA c.shard_cache h,
                chunk_cache := insertA c.chunk_cache h v }) := by
  simp only [TrieCache.chargeable_get, TrieCache.get_cache_position, lru_get, lru_pop,
    h1, h2, hmode, lookupA_cons, if_pos rfl]
  simp [removeA, removeA_removeA]

lemma chargeable_get_shard_keep (c : TrieCache) (h : CryptoHash) (v : Bytes)
    (hmode : c.cache_state = CacheState.CachingShard)
    (h1 : lookupA c.chunk_cache h = none) (h2 : lookupA c.shard_cache h = some v) :
    c.chargeable_get h =
      ((some v, RetrievalCost.Full),
       { c with shard_cache := (h, v) :: removeA c.shard_cache h }) := by
  simp only [TrieCache.chargeable_get, TrieCache.get_cache_position, lru_get,
    h1, h2, hmode]

end ChargeableGet

/-- C1: `chargeable_get` classifies cost exactly: absent in both tiers gives
`(none, Full)` (state untouched); a chunk-tier hit gives `(some bytes, Free)`
(state untouched) regardless of the shard tier, so the chunk tier is
consulted first; a shard-tier hit gives `(some bytes, Full)`, and the entry
is moved from the shard tier into the chunk tier exactly when the mode is
`CachingChunk`. -/
theorem chargeable_get_classification (c : TrieCache) (h : CryptoHash) :
    (lookupA c.chunk_cache h = none → lookupA c.shard_cache h = none →
      c.chargeable_get h = ((none, RetrievalCost.Full), c))
    ∧ (∀ v, lookupA c.chunk_cache h = some v →
      c.chargeable_get h = ((some v, RetrievalCost.Free), c))
    ∧ (∀ v, lookupA c.chunk_cache h = none → lookupA c.shard_cache h = some v →
      (c.chargeable_get h).1 = (some v, RetrievalCost.Full)
      ∧ (c.cache_state = CacheState.CachingChunk →
          lookupA (c.chargeable_get h).2.shard_cache h = none
          ∧ lookupA (c.chargeable_get h).2.chunk_cache h = some v)
      ∧ (c.cache_state = CacheState.CachingShard →
          (c.chargeable_get h).2.chunk_cache = c.chunk_cache
          ∧ lookupA (c.chargeable_get h).2.shard_cache h = some v)) := by
  refine ⟨fun h1 h2 => chargeable_get_absent c h h1 h2,
          fun v h1 => chargeable_get_chunk c h v h1,
          fun v h1 h2 => ⟨?_, fun hmode => ?_, fun hmode => ?_⟩⟩
  · cases hmode : c.cache_state with
    | CachingChunk => rw [chargeable_get_shard_promote c h v hmode h1 h2]
    | CachingShard => rw [chargeable_get_shard_keep c h v hmode h1 h2]
  · rw [chargeable_get_shard_promote c h v hmode h1 h2]
    constructor
    · rw [lookupA_removeA]
      simp
    · rw [lookupA_insertA]
      simp
  · rw [chargeable_get_shard_keep c h v hmode h1 h2]
    constructor
    · rfl
    · rw [lookupA_cons, if_pos rfl]

section TierExclusivity

lemma tier_exclusive_put (c : TrieCache) (h : CryptoHash) (v : Bytes)
    (hInv : TierExclusive c) : TierExclusive (c.put h v) := by
  by_cases hlen : TRIE_LIMIT_CACHED_VALUE_SIZE ≤ v.length
  · simpa [TrieCache.put, hlen] using hInv
  · cases hstate : c.cache_state with
    | CachingChunk =>
      intro x
      simp only [TrieCache.put, if_neg hlen, hstate, lru_pop]
      by_cases hx : x = h
      · right
        rw [hx, lookupA_removeA]
        simp
      · rw [lookupA_insertA, lookupA_removeA,
          if_neg (fun hh => hx hh.symm), if_neg hx]
        exact hInv x
    | CachingShard =>
      rcases hch : lookupA c.chunk_cache h with _ | w
      · intro x
        simp only [TrieCache.put, if_neg hlen, hstate, hch, Option.isSome_none,
          Bool.false_eq_true, if_neg, ite_false, lru_put]
        by_cases hx : x = h
        · left
          rw [hx]
          exact hch
        · rcases hInv x with hc | hs
          · exact Or.inl hc
          · right
            apply lookupA_take_none
            rw [lookupA_cons, if_neg (fun hh => hx hh.symm), lookupA_removeA, if_neg hx]
            exact hs
      · intro x
        simp only [TrieCache.put, if_neg hlen, hstate, hch, Option.isSome_some, ite_true]
        by_cases hx : x = h
        · right
          rw [hx]
          rcases hInv h with hc | hs
          · rw [hch] at hc
            exact Option.noConfusion hc
          · exact hs
        · rw [lookupA_insertA, if_neg (fun hh => hx hh.symm)]
          exact hInv x

lemma tier_exclusive_get (c : TrieCache) (h : CryptoHash)
    (hInv : TierExclusive c) : TierExclusive (c.chargeable_get h).2 := by
  rcases hch : lookupA c.chunk_cache h with _ | v
  · rcases hsh : lookupA c.shard_cache h with _ | v
    · rw [chargeable_get_absent c h hch hsh]
      exact hInv
    · cases hmode : c.cache_state with
      | CachingShard =>
        rw [chargeable_get_shard_keep c h v hmode hch hsh]
        intro x
        by_cases hx : x = h
        · left
          rw [hx]
          exact hch
        · rw [lookupA_cons, if_neg (fun hh => hx hh.symm), lookupA_removeA, if_neg hx]
          exact hInv x
      | CachingChunk =>
        rw [chargeable_get_shard_promote c h v hmode hch hsh]
        intro x
        by_cases hx : x = h
        · right
          rw [hx, lookupA_removeA]
          simp
        · rw [lookupA_insertA, lookupA_removeA,
            if_neg (fun hh => hx hh.symm), if_neg hx]
          exact hInv x
  · rw [chargeable_get_chunk c h v hch]
    exact hInv

lemma tier_exclusive_pop (c : TrieCache) (h : CryptoHash)
    (hInv : TierExclusive c) : TierExclusive (c.pop h).2 := by
  rcases hch : lookupA c.chunk_cache h with _ | v
  · intro x
    simp only [TrieCache.pop, hch, lru_pop]
    by_cases hx : x = h
    · right
      rw [hx, lookupA_removeA]
      simp
    · rw [lookupA_removeA, if_neg hx]
      exact hInv x
  · intro x
    simp only [TrieCache.pop, hch]
    by_cases hx : x = h
    · left
      rw [hx, lookupA_removeA]
      simp
    · rw [lookupA_removeA, if_neg hx]
      exact hInv x

lemma tier_exclusive_drain (c : TrieCache) : TierExclusive c.drain_chunk_cache := by
  intro x
  left
  rfl

lemma tier_exclusive_update_cache (decode : Bytes → Option Bytes × Int)
    (ops : List (CryptoHash × Option Bytes)) :
    ∀ c : TrieCache, TierExclusive c → TierExclusive (c.update_cache decode ops) := by
  induction ops with
  | nil => intro c hInv; exact hInv
  | cons p t ih =>
    intro c hInv
    rcases p with ⟨h, _ | raw⟩
    · rw [TrieCache.update_cache]
      exact ih _ (tier_exclusive_pop c h hInv)
    · rw [TrieCache.update_cache]
      rcases hdec : (decode raw).1 with _ | v
      · exact ih _ (tier_exclusive_pop c h hInv)
      · exact ih _ (tier_exclusive_put c h v hInv)

lemma tier_exclusive_runOp (decode : Bytes → Option Bytes × Int) (c : TrieCache)
    (op : CacheOp) (hInv : TierExclusive c) : TierExclusive (runOp decode c op) := by
  cases op with
  | put h v => exact tier_exclusive_put c h v hInv
  | pop h => exact tier_exclusive_pop c h hInv
  | get h => exact tier_exclusive_get c h hInv
  | drain => exact tier_exclusive_drain c
  | flip => exact hInv
  | clear => intro x; left; rfl
  | batch ops => exact tier_exclusive_update_cache decode ops c hInv

lemma tier_exclusive_runOps (decode : Bytes → Option Bytes × Int) (ops : List CacheOp) :
    ∀ c : TrieCache, TierExclusive c → TierExclusive (runOps decode ops c) := by
  induction ops with
  | nil => intro c hInv; exact hInv
  | cons op t ih =>
    intro c hInv
    exact ih _ (tier_exclusive_runOp decode c op hInv)

end TierExclusivity

/-- C2: tier exclusivity — starting from a fresh cache, after any sequence
of `put`, `pop`, `chargeable_get`, `drain_chunk_cache`, mode flips, `clear`
and `update_cache` batches (with any refcount decoder), no hash is present
in both tiers at once. -/
theorem tier_exclusivity (no_cache : Bool) (decode : Bytes → Option Bytes × Int)
    (ops : List CacheOp) : TierExclusive (runOps decode ops (TrieCache.new no_cache)) :=
  tier_exclusive_runOps decode ops _ (fun _ => Or.inl rfl)

/-- Witness for C1 at a concrete cache: one entry in the shard tier, mode
`CachingChunk`, so the access promotes it into the chunk tier. -/
theorem chargeable_get_classification_witness :
    (lookupA (TrieCache.mk CacheState.CachingChunk [(⟨[1]⟩, [9])] [] 5).chunk_cache ⟨[1]⟩
        = none)
    ∧ ((TrieCache.mk CacheState.CachingChunk [(⟨[1]⟩, [9])] [] 5).chargeable_get ⟨[1]⟩).1
        = (some [9], RetrievalCost.Full)
    ∧ lookupA ((TrieCache.mk CacheState.CachingChunk [(⟨[1]⟩, [9])] [] 5).chargeable_get
        ⟨[1]⟩).2.chunk_cache ⟨[1]⟩ = some [9] :=
  ⟨by decide,
   ((chargeable_get_classification
      (TrieCache.mk CacheState.CachingChunk [(⟨[1]⟩, [9])] [] 5) ⟨[1]⟩).2.2 [9]
      (by decide) (by decide)).1,
   (((chargeable_get_classification
      (TrieCache.mk CacheState.CachingChunk [(⟨[1]⟩, [9])] [] 5) ⟨[1]⟩).2.2 [9]
      (by decide) (by decide)).2.1 (by decide)).2⟩

/-- C3: payloads of at least `TRIE_LIMIT_CACHED_VALUE_SIZE` (1000) bytes are
never cached — `put` is a no-op in any mode, and a subsequent
`chargeable_get` on a hash that is not otherwise cached misses with full
cost. -/
theorem size_threshold (c : TrieCache) (h : CryptoHash) (v : Bytes)
    (hlen : TRIE_LIMIT_CACHED_VALUE_SIZE ≤ v.length) :
    c.put h v = c
    ∧ (lookupA c.chunk_cache h = none → lookupA c.shard_cache h = none →
        (c.put h v).chargeable_get h = ((none, RetrievalCost.Full), c)) := by
  have hput : c.put h v = c := by simp [TrieCache.put, hlen]
  refine ⟨hput, fun h1 h2 => ?_⟩
  rw [hput]
  exact chargeable_get_absent c h h1 h2

/-- Witness for C3: a 1000-byte payload put into a fresh cache is not
stored, and the get misses. -/
theorem size_threshold_witness :
    TRIE_LIMIT_CACHED_VALUE_SIZE ≤ (List.replicate 1000 0).length
    ∧ ((TrieCache.new false).put ⟨[2]⟩ (List.replicate 1000 0)).chargeable_get ⟨[2]⟩
        = ((none, RetrievalCost.Full), TrieCache.new false) :=
  ⟨by rw [List.length_replicate]; decide,
   (size_threshold (TrieCache.new false) ⟨[2]⟩ (List.replicate 1000 0)
      (by rw [List.length_replicate]; decide)).2 rfl rfl⟩

section DrainLemmas

lemma lru_put_preserves_take (l : List (CryptoHash × Bytes)) (n cap : Nat)
    (h k : CryptoHash) (v w : Bytes) (hhk : h ≠ k) (hn : n < cap)
    (hl : lookupA (l.take n) h = some v) :
    lookupA ((lru_put cap l k w).take (n + 1)) h = some v := by
  rw [lru_put, List.take_take, Nat.min_eq_left (by omega), List.take_succ_cons,
    lookupA_cons, if_neg (fun hh => hhk hh.symm)]
  exact lookupA_take_removeA l h k v hhk n hl

lemma foldPut_preserves_take (cap : Nat) (h : CryptoHash) (v : Bytes) :
    ∀ (t : List (CryptoHash × Bytes)) (l : List (CryptoHash × Bytes)) (n : Nat),
      h ∉ t.map Prod.fst → n + t.length ≤ cap →
      lookupA (l.take n) h = some v →
      lookupA ((foldPut cap l t).take (n + t.length)) h = some v := by
  intro t
  induction t with
  | nil => intro l n _ _ hl; simpa [foldPut] using hl
  | cons p r ih =>
    intro l n hmem hbound hl
    rw [List.map_cons, List.mem_cons] at hmem
    push_neg at hmem
    have hlc : (p :: r).length = r.length + 1 := rfl
    have step := lru_put_preserves_take l n cap h p.1 v p.2 hmem.1 (by omega) hl
    have hfold : foldPut cap l (p :: r) = foldPut cap (lru_put cap l p.1 p.2) r := rfl
    rw [hfold]
    have hlen : n + (p :: r).length = (n + 1) + r.length := by omega
    rw [hlen]
    exact ih (lru_put cap l p.1 p.2) (n + 1) hmem.2 (by
      rw [← hlen]
      exact hbound) step

lemma foldPut_all (cap : Nat) :
    ∀ (t : List (CryptoHash × Bytes)) (l : List (CryptoHash × Bytes)),
      (t.map Prod.fst).Nodup → t.length ≤ cap →
      ∀ h v, lookupA t h = some v →
        lookupA ((foldPut cap l t).take t.length) h = some v := by
  intro t
  induction t with
  | nil => intro l _ _ h v hl; simp [lookupA] at hl
  | cons p r ih =>
    intro l hnd hbound h v hl
    obtain ⟨h0, v0⟩ := p
    rw [List.map_cons, List.nodup_cons] at hnd
    rw [lookupA_cons] at hl
    have hfold : foldPut cap l ((h0, v0) :: r) = foldPut cap (lru_put cap l h0 v0) r := rfl
    have hlc : ((h0, v0) :: r).length = r.length + 1 := rfl
    by_cases hh : h0 = h
    · rw [if_pos hh] at hl
      have hcap1 : 1 ≤ cap := by omega
      have hbase : lookupA ((lru_put cap l h0 v0).take 1) h = some v := by
        rw [lru_put, List.take_take, Nat.min_eq_left hcap1, List.take_succ_cons,
          List.take_zero, lookupA_cons, if_pos hh, hl]
      have := foldPut_preserves_take cap h v r (lru_put cap l h0 v0) 1
        (by
          intro hmem
          exact hnd.1 (hh ▸ hmem))
        (by omega) hbase
      rw [hfold]
      have hlen : ((h0, v0) :: r).length = 1 + r.length := by omega
      rwa [hlen]
    · rw [if_neg hh] at hl
      have := ih (lru_put cap l h0 v0) hnd.2 (by omega) h v hl
      rw [hfold]
      exact lookupA_take_mono _ h v r.length ((h0, v0) :: r).length (by omega) this

end DrainLemmas

/-- C4 (amended): `drain_chunk_cache` always empties the chunk tier, and —
provided the chunk tier holds no more entries than the shard-tier capacity —
every entry formerly in the chunk tier is afterwards resolvable from the
shard tier.  (The chunk tier is a map, so its keys are duplicate-free.) -/
theorem drain_chunk_cache_correct (c : TrieCache)
    (hnodup : (c.chunk_cache.map Prod.fst).Nodup)
    (hlen : c.chunk_cache.length ≤ c.cap) :
    c.drain_chunk_cache.chunk_cache = []
    ∧ ∀ h v, lookupA c.chunk_cache h = some v →
        lookupA c.drain_chunk_cache.shard_cache h = some v := by
  refine ⟨rfl, fun h v hl => ?_⟩
  exact lookupA_of_take _ h v _
    (foldPut_all c.cap c.chunk_cache c.shard_cache hnodup hlen h v hl)

/-- Counterexample to C4 as stated: with shard capacity 1 (the `no_cache`
configuration of `TRIE_MAX_CACHE_SIZE`) and two entries in the chunk tier,
draining loses one of them — it is resolvable from neither tier
afterwards. -/
theorem drain_chunk_cache_loses_entry :
    lookupA drainExampleState.chunk_cache ⟨[2]⟩ = some [2]
    ∧ drainExampleState.drain_chunk_cache.chunk_cache = []
    ∧ lookupA drainExampleState.drain_chunk_cache.shard_cache ⟨[2]⟩ = none := by
  decide

/-- Witness for C4 at a concrete state: capacity 1, one chunk-tier entry,
which survives the drain into the shard tier. -/
theorem drain_chunk_cache_correct_witness :
    (drainSmallState.chunk_cache.map Prod.fst).Nodup
    ∧ drainSmallState.chunk_cache.length ≤ drainSmallState.cap
    ∧ lookupA drainSmallState.drain_chunk_cache.shard_cache ⟨[1]⟩ = some [1] :=
  ⟨by decide, by decide,
   (drain_chunk_cache_correct drainSmallState (by decide) (by decide)).2
     ⟨[1]⟩ [1] (by decide)⟩

section ReplayLemmas

lemma runVisited_mem (R : List (CryptoHash × Bytes)) (hs : List CryptoHash) :
    ∀ (vis : List CryptoHash) (x : CryptoHash),
      x ∈ TrieMemoryPartStorage.runVisited R vis hs
        ↔ (x ∈ hs ∧ (lookupA R x).isSome) ∨ x ∈ vis := by
  induction hs with
  | nil => intro vis x; simp [TrieMemoryPartStorage.runVisited]
  | cons h t ih =>
    intro vis x
    rw [TrieMemoryPartStorage.runVisited]
    rcases hR : lookupA R h with _ | v
    · simp only [TrieMemoryPartStorage.retrieve_raw_bytes, hR]
      rw [ih]
      constructor
      · rintro (⟨hxt, hsome⟩ | hxv)
        · exact Or.inl ⟨List.mem_cons_of_mem _ hxt, hsome⟩
        · exact Or.inr hxv
      · rintro (⟨hxht, hsome⟩ | hxv)
        · rcases List.mem_cons.mp hxht with rfl | hxt
          · rw [hR] at hsome
            simp at hsome
          · exact Or.inl ⟨hxt, hsome⟩
        · exact Or.inr hxv
    · simp only [TrieMemoryPartStorage.retrieve_raw_bytes, hR]
      rw [ih]
      constructor
      · rintro (⟨hxt, hsome⟩ | hxv)
        · exact Or.inl ⟨List.mem_cons_of_mem _ hxt, hsome⟩
        · rcases (mem_insertSet vis h x).mp hxv with hxh | hxv2
          · exact Or.inl ⟨by rw [hxh]; exact List.mem_cons_self _ _, by rw [hxh, hR]; rfl⟩
          · exact Or.inr hxv2
      · rintro (⟨hxht, hsome⟩ | hxv)
        · rcases List.mem_cons.mp hxht with hxh | hxt
          · exact Or.inr ((mem_insertSet vis h x).mpr (Or.inl hxh))
          · exact Or.inl ⟨hxt, hsome⟩
        · exact Or.inr ((mem_insertSet vis h x).mpr (Or.inr hxv))

end ReplayLemmas

/-- C5: replay soundness — `TrieMemoryPartialStorage` resolves a hash
successfully, returning the recorded bytes and marking it visited, exactly
when the hash is a key of the record set; otherwise it fails with
`TrieNodeMissing` and the visited set is untouched; and after any resolution
sequence the visited set is exactly the set of distinct hashes that resolved
successfully. -/
theorem replay_soundness (R : List (CryptoHash × Bytes)) (visited : List CryptoHash)
    (h : CryptoHash) (hs : List CryptoHash) :
    (∀ v, lookupA R h = some v →
      TrieMemoryPartStorage.retrieve_raw_bytes R visited h
        = (Except.ok v, insertSet visited h))
    ∧ (lookupA R h = none →
      TrieMemoryPartStorage.retrieve_raw_bytes R visited h
        = (Except.error StorageError.TrieNodeMissing, visited))
    ∧ (∀ x, x ∈ TrieMemoryPartStorage.runVisited R [] hs
        ↔ x ∈ hs ∧ (lookupA R x).isSome) := by
  refine ⟨fun v hv => ?_, fun hv => ?_, fun x => ?_⟩
  · simp only [TrieMemoryPartStorage.retrieve_raw_bytes, hv]
  · simp only [TrieMemoryPartStorage.retrieve_raw_bytes, hv]
  · rw [runVisited_mem]
    simp

/-- Witness for C5: a one-entry record set resolves its key and marks it
visited; over a two-resolution sequence only the successful hash is
visited. -/
theorem replay_soundness_witness :
    lookupA [(⟨[1]⟩, [7])] ⟨[1]⟩ = some [7]
    ∧ TrieMemoryPartStorage.retrieve_raw_bytes [(⟨[1]⟩, [7])] [] ⟨[1]⟩
        = (Except.ok [7], insertSet [] ⟨[1]⟩)
    ∧ (⟨[2]⟩ ∈ TrieMemoryPartStorage.runVisited [(⟨[1]⟩, [7])] [] [⟨[1]⟩, ⟨[2]⟩]
        ↔ ⟨[2]⟩ ∈ ([⟨[1]⟩, ⟨[2]⟩] : List CryptoHash)
          ∧ (lookupA [(⟨[1]⟩, [7])] ⟨[2]⟩).isSome) :=
  ⟨by decide,
   (replay_soundness [(⟨[1]⟩, [7])] [] ⟨[1]⟩ []).1 [7] (by decide),
   (replay_soundness [(⟨[1]⟩, [7])] [] ⟨[1]⟩ [⟨[1]⟩, ⟨[2]⟩]).2.2 ⟨[2]⟩⟩

section RecordingLemmas

lemma recording_run_count (store : Bytes → Except Unit (Option Bytes)) (su : ShardUId) :
    ∀ (hs : List CryptoHash) (recorded : List (CryptoHash × Bytes))
      (seen : List CryptoHash),
      (∀ x, (lookupA recorded x).isSome ↔ x ∈ seen) →
      (∀ x ∈ hs, ∃ v, store (get_key_from_shard_uid_and_hash su x) = Except.ok (some v)) →
      (TrieRecordingStorage.run store su recorded hs).2 + seen.length
        = (List.foldl insertSet seen hs).length := by
  intro hs
  induction hs with
  | nil => intro recorded seen _ _; simp [TrieRecordingStorage.run]
  | cons h t ih =>
    intro recorded seen hinv hstore
    obtain ⟨v, hv⟩ := hstore h (List.mem_cons_self h t)
    rw [List.foldl_cons]
    rcases hrec : lookupA recorded h with _ | w
    · simp only [TrieRecordingStorage.run, TrieRecordingStorage.retrieve_raw_bytes,
        hrec, hv]
      have hseen : h ∉ seen := by
        intro hmem
        have := (hinv h).mpr hmem
        rw [hrec] at this
        simp at this
      have hins : insertSet seen h = h :: seen := by rw [insertSet, if_neg hseen]
      rw [hins]
      have hinv2 : ∀ x, (lookupA (insertA recorded h v) x).isSome ↔ x ∈ h :: seen := by
        intro x
        rw [lookupA_insertA, List.mem_cons]
        by_cases hx : h = x
        · simp [hx]
        · rw [if_neg hx, hinv x]
          constructor
          · exact Or.inr
          · rintro (hxh | hmem)
            · exact absurd hxh.symm hx
            · exact hmem
      have hrest := ih (insertA recorded h v) (h :: seen) hinv2
        (fun x hx => hstore x (List.mem_cons_of_mem _ hx))
      have hlc : (h :: seen).length = seen.length + 1 := rfl
      omega
    · simp only [TrieRecordingStorage.run, TrieRecordingStorage.retrieve_raw_bytes, hrec]
      have hseen : h ∈ seen := (hinv h).mp (by rw [hrec]; rfl)
      have hins : insertSet seen h = seen := by rw [insertSet, if_pos hseen]
      rw [hins]
      have hrest := ih recorded seen hinv (fun x hx => hstore x (List.mem_cons_of_mem _ hx))
      omega

end RecordingLemmas

/-- C6 (amended): `TrieRecordingStorage` serves an already-recorded hash
from the record with no store query; a first successful resolution queries
the store once and records exactly the returned pair; a store miss fails
with `StorageInconsistentState` (not `TrieNodeMissing`) and records nothing;
consequently, over any resolution sequence in which every requested hash is
present in the store, the total number of store queries equals the number of
distinct hashes (a hash the store cannot provide is not recorded and is
re-queried on each attempt). -/
theorem recording_completeness (store : Bytes → Except Unit (Option Bytes))
    (su : ShardUId) (recorded : List (CryptoHash × Bytes)) (h : CryptoHash)
    (hs : List CryptoHash) :
    (∀ v, lookupA recorded h = some v →
      TrieRecordingStorage.retrieve_raw_bytes store su recorded h
        = (Except.ok v, recorded, 0))
    ∧ (∀ v, lookupA recorded h = none →
        store (get_key_from_shard_uid_and_hash su h) = Except.ok (some v) →
      TrieRecordingStorage.retrieve_raw_bytes store su recorded h
        = (Except.ok v, insertA recorded h v, 1))
    ∧ (lookupA recorded h = none →
        store (get_key_from_shard_uid_and_hash su h) = Except.ok none →
      TrieRecordingStorage.retrieve_raw_bytes store su recorded h
        = (Except.error (StorageError.StorageInconsistentState "Trie node missing"),
           recorded, 1))
    ∧ ((∀ x ∈ hs, ∃ v,
          store (get_key_from_shard_uid_and_hash su x) = Except.ok (some v)) →
      (TrieRecordingStorage.run store su [] hs).2 = countDistinct hs) := by
  refine ⟨fun v hv => ?_, fun v hv hst => ?_, fun hv hst => ?_, fun hstore => ?_⟩
  · simp only [TrieRecordingStorage.retrieve_raw_bytes, hv]
  · simp only [TrieRecordingStorage.retrieve_raw_bytes, hv, hst]
  · simp only [TrieRecordingStorage.retrieve_raw_bytes, hv, hst]
  · have := recording_run_count store su hs [] []
      (by intro x; simp [lookupA]) hstore
    simpa [countDistinct] using this

/-- Counterexample to C6 as stated: resolving the same store-missing hash
twice queries the store twice, although there is only one distinct hash —
a failed resolution is not recorded, so it does not suppress later
queries. -/
theorem recording_repeated_miss_queries_twice :
    (TrieRecordingStorage.run storeNone ⟨List.replicate 8 0⟩ [] [⟨[1]⟩, ⟨[1]⟩]).2 = 2
    ∧ countDistinct [⟨[1]⟩, ⟨[1]⟩] = 1 := by
  decide

/-- Witness for C6: with a store holding every key, a three-resolution
sequence over two distinct hashes makes exactly two store queries. -/
theorem recording_completeness_witness :
    (∀ x ∈ ([⟨[1]⟩, ⟨[1]⟩, ⟨[2]⟩] : List CryptoHash), ∃ v,
        storeSome (get_key_from_shard_uid_and_hash ⟨List.replicate 8 0⟩ x)
          = Except.ok (some v))
    ∧ (TrieRecordingStorage.run storeSome ⟨List.replicate 8 0⟩ []
        [⟨[1]⟩, ⟨[1]⟩, ⟨[2]⟩]).2 = countDistinct [⟨[1]⟩, ⟨[1]⟩, ⟨[2]⟩] :=
  ⟨fun _ _ => ⟨[7], rfl⟩,
   (recording_completeness storeSome ⟨List.replicate 8 0⟩ [] ⟨[1]⟩
      [⟨[1]⟩, ⟨[1]⟩, ⟨[2]⟩]).2.2.2 (fun _ _ => ⟨[7], rfl⟩)⟩

/-- C7: key encoding — the encoded key is exactly 40 bytes, the first 8 the
shard identifier and the last 32 the hash; decoding succeeds on every
40-byte input (the two internal conversions cannot fail), inverts encoding,
and fails on every input whose length is not 40. -/
theorem key_encoding_roundtrip (su : ShardUId) (h : CryptoHash)
    (h8 : su.bytes.length = 8) (h32 : h.bytes.length = 32) :
    (get_key_from_shard_uid_and_hash su h).length = 40
    ∧ (get_key_from_shard_uid_and_hash su h).take 8 = su.bytes
    ∧ (get_key_from_shard_uid_and_hash su h).drop 8 = h.bytes
    ∧ get_shard_uid_and_hash_from_key (get_key_from_shard_uid_and_hash su h)
        = some (su, h)
    ∧ (∀ bs : Bytes, bs.length = 40 → (get_shard_uid_and_hash_from_key bs).isSome)
    ∧ (∀ bs : Bytes, bs.length ≠ 40 → get_shard_uid_and_hash_from_key bs = none) := by
  have hlen : (get_key_from_shard_uid_and_hash su h).length = 40 := by
    simp [get_key_from_shard_uid_and_hash, ShardUId.to_bytes, h8, h32]
  have htake : (get_key_from_shard_uid_and_hash su h).take 8 = su.bytes := by
    rw [get_key_from_shard_uid_and_hash, ShardUId.to_bytes, ← h8, List.take_left]
  have hdrop : (get_key_from_shard_uid_and_hash su h).drop 8 = h.bytes := by
    rw [get_key_from_shard_uid_and_hash, ShardUId.to_bytes, ← h8, List.drop_left]
  refine ⟨hlen, htake, hdrop, ?_, fun bs hbs => ?_, fun bs hbs => ?_⟩
  · rw [get_shard_uid_and_hash_from_key, if_pos hlen, htake, hdrop,
      ShardUId.try_from, if_pos h8, CryptoHash.try_from, if_pos h32]
  · rw [get_shard_uid_and_hash_from_key, if_pos hbs]
    have ht : (bs.take 8).length = 8 := by
      rw [List.length_take, hbs]
      decide
    have hd : (bs.drop 8).length = 32 := by
      rw [List.length_drop, hbs]
    rw [ShardUId.try_from, if_pos ht, CryptoHash.try_from, if_pos hd]
    rfl
  · rw [get_shard_uid_and_hash_from_key, if_neg hbs]

/-- Witness for C7: concrete 8-byte shard identifier and 32-byte hash
round-trip through the key encoding. -/
theorem key_encoding_roundtrip_witness :
    (List.replicate 8 0).length = 8
    ∧ (List.replicate 32 1).length = 32
    ∧ get_shard_uid_and_hash_from_key
        (get_key_from_shard_uid_and_hash ⟨List.replicate 8 0⟩ ⟨List.replicate 32 1⟩)
        = some (⟨List.replicate 8 0⟩, ⟨List.replicate 32 1⟩) :=
  ⟨by decide, by decide,
   (key_encoding_roundtrip ⟨List.replicate 8 0⟩ ⟨List.replicate 32 1⟩
      (by decide) (by decide)).2.2.2.1⟩

section ErrorAtomicity

lemma chargeable_get_none_state (c : TrieCache) (h : CryptoHash)
    (hnone : (c.chargeable_get h).1.1 = none) : (c.chargeable_get h).2 = c := by
  rcases hch : lookupA c.chunk_cache h with _ | v
  · rcases hsh : lookupA c.shard_cache h with _ | v
    · rw [chargeable_get_absent c h hch hsh]
    · cases hmode : c.cache_state with
      | CachingShard =>
        rw [chargeable_get_shard_keep c h v hmode hch hsh] at hnone
        simp at hnone
      | CachingChunk =>
        rw [chargeable_get_shard_promote c h v hmode hch hsh] at hnone
        simp at hnone
  · rw [chargeable_get_chunk c h v hch] at hnone
    simp at hnone

end ErrorAtomicity

/-- C10: atomicity on error — whenever `chargeable_retrieve_raw_bytes`
returns an error (internal store failure or store miss), the cache state
(both tiers and the mode flag) is exactly what it was before the call. -/
theorem error_atomicity (store : Bytes → Except Unit (Option Bytes)) (su : ShardUId)
    (c : TrieCache) (h : CryptoHash) :
    ∀ e, (chargeable_retrieve_raw_bytes store su c h).1 = Except.error e →
      (chargeable_retrieve_raw_bytes store su c h).2 = c := by
  intro e herr
  rcases hg : c.chargeable_get h with ⟨⟨vOpt, cost⟩, c1⟩
  rcases vOpt with _ | val
  · have hc1 : c1 = c := by
      have := chargeable_get_none_state c h (by rw [hg])
      rw [hg] at this
      exact this
    rcases hst : store (get_key_from_shard_uid_and_hash su h) with e' | vOpt2
    · simp only [chargeable_retrieve_raw_bytes, hg, hst]
      exact hc1
    · rcases vOpt2 with _ | val2
      · simp only [chargeable_retrieve_raw_bytes, hg, hst]
        exact hc1
      · rw [chargeable_retrieve_raw_bytes] at herr
        rw [hg] at herr
        simp only [hst] at herr
        exact Except.noConfusion herr
  · rw [chargeable_retrieve_raw_bytes] at herr
    rw [hg] at herr
    exact Except.noConfusion herr

/-- Witness for C10: a store that fails internally leaves a fresh cache
unchanged. -/
theorem error_atomicity_witness :
    (chargeable_retrieve_raw_bytes storeFail ⟨List.replicate 8 0⟩
        (TrieCache.new false) ⟨[1]⟩).1
      = Except.error StorageError.StorageInternalError
    ∧ (chargeable_retrieve_raw_bytes storeFail ⟨List.replicate 8 0⟩
        (TrieCache.new false) ⟨[1]⟩).2
      = TrieCache.new false :=
  ⟨rfl,
   error_atomicity storeFail ⟨List.replicate 8 0⟩ (TrieCache.new false) ⟨[1]⟩
     StorageError.StorageInternalError rfl⟩

section FreeCost

lemma put_chunk_mode (c : TrieCache) (h : CryptoHash) (v : Bytes)
    (hlen : v.length < TRIE_LIMIT_CACHED_VALUE_SIZE)
    (hstate : c.cache_state = CacheState.CachingChunk) :
    c.put h v = { c with shard_cache := removeA c.shard_cache h,
                         chunk_cache := insertA c.chunk_cache h v } := by
  simp [TrieCache.put, Nat.not_le.mpr hlen, hstate, lru_pop]

lemma put_shard_fresh (c : TrieCache) (h : CryptoHash) (v : Bytes)
    (hlen : v.length < TRIE_LIMIT_CACHED_VALUE_SIZE)
    (hstate : c.cache_state = CacheState.CachingShard)
    (hchunk : lookupA c.chunk_cache h = none) :
    c.put h v = { c with shard_cache := lru_put c.cap c.shard_cache h v } := by
  simp [TrieCache.put, Nat.not_le.mpr hlen, hstate, hchunk]

lemma lookupA_lru_put_self (cap : Nat) (l : List (CryptoHash × Bytes))
    (h : CryptoHash) (v : Bytes) (hcap : 1 ≤ cap) :
    lookupA (lru_put cap l h v) h = some v := by
  rw [lru_put]
  cases cap with
  | zero => omega
  | succ k =>
    rw [List.take_succ_cons, lookupA_cons, if_pos rfl]

end FreeCost

/-- C8 (amended): for payloads below the 1000-byte caching threshold (and a
non-degenerate shard capacity), a `put` in `CachingChunk` mode makes the
next `chargeable_get` on that hash `Free`; the same `put` in `CachingShard`
mode (with the hash not already in the chunk tier), followed by a mode flip
to `CachingChunk`, makes the first `chargeable_get` cost `Full` (the
promotion access) and the next one `Free`. -/
theorem free_cost_correct (c : TrieCache) (h : CryptoHash) (v : Bytes)
    (hlen : v.length < TRIE_LIMIT_CACHED_VALUE_SIZE) (hcap : 1 ≤ c.cap) :
    (c.cache_state = CacheState.CachingChunk →
      ((c.put h v).chargeable_get h).1 = (some v, RetrievalCost.Free))
    ∧ (c.cache_state = CacheState.CachingShard →
        lookupA c.chunk_cache h = none →
      (((c.put h v).flip_caching_chunk_state.chargeable_get h).1
          = (some v, RetrievalCost.Full))
      ∧ ((((c.put h v).flip_caching_chunk_state.chargeable_get h).2.chargeable_get h).1
          = (some v, RetrievalCost.Free))) := by
  constructor
  · intro hstate
    rw [put_chunk_mode c h v hlen hstate]
    rw [chargeable_get_chunk _ h v (by rw [lookupA_insertA, if_pos rfl])]
  · intro hstate hchunk
    rw [put_shard_fresh c h v hlen hstate hchunk]
    have hmode2 : ({ c with shard_cache := lru_put c.cap c.shard_cache h v
        } : TrieCache).flip_caching_chunk_state.cache_state
        = CacheState.CachingChunk := by
      simp [TrieCache.flip_caching_chunk_state, hstate]
    have hchunk2 : lookupA ({ c with shard_cache := lru_put c.cap c.shard_cache h v
        } : TrieCache).flip_caching_chunk_state.chunk_cache h = none := hchunk
    have hshard2 : lookupA ({ c with shard_cache := lru_put c.cap c.shard_cache h v
        } : TrieCache).flip_caching_chunk_state.shard_cache h = some v :=
      lookupA_lru_put_self c.cap c.shard_cache h v hcap
    rw [chargeable_get_shard_promote _ h v hmode2 hchunk2 hshard2]
    refine ⟨rfl, ?_⟩
    rw [chargeable_get_chunk _ h v (by rw [lookupA_insertA, if_pos rfl])]

/-- Counterexample to C8 as stated: a 1000-byte payload put in
`CachingChunk` mode is not cached at all, so the next `chargeable_get` on
its hash misses with `Full` cost instead of returning `Free`. -/
theorem free_cost_fails_at_threshold :
    ((TrieCache.new false).flip_caching_chunk_state.cache_state
        = CacheState.CachingChunk)
    ∧ (((TrieCache.new false).flip_caching_chunk_state.put ⟨[3]⟩
          (List.replicate 1000 0)).chargeable_get ⟨[3]⟩).1
        = (none, RetrievalCost.Full) := by
  constructor
  · rfl
  · have hput : (TrieCache.new false).flip_caching_chunk_state.put ⟨[3]⟩
        (List.replicate 1000 0) = (TrieCache.new false).flip_caching_chunk_state := by
      rw [TrieCache.put, if_pos (by rw [List.length_replicate]; decide)]
    rw [hput]
    rfl

/-- Witness for C8: small payload, fresh cache in `CachingShard` mode —
promotion costs `Full` once, then `Free`. -/
theorem free_cost_correct_witness :
    ([5] : Bytes).length < TRIE_LIMIT_CACHED_VALUE_SIZE
    ∧ 1 ≤ (TrieCache.new false).cap
    ∧ ((((TrieCache.new false).put ⟨[4]⟩
          [5]).flip_caching_chunk_state.chargeable_get ⟨[4]⟩).1
        = (some [5], RetrievalCost.Full))
    ∧ (((((TrieCache.new false).put ⟨[4]⟩
          [5]).flip_caching_chunk_state.chargeable_get ⟨[4]⟩).2.chargeable_get ⟨[4]⟩).1
        = (some [5], RetrievalCost.Free)) :=
  ⟨by decide, by decide,
   ((free_cost_correct (TrieCache.new false) ⟨[4]⟩ [5] (by decide) (by decide)).2
      rfl rfl).1,
   ((free_cost_correct (TrieCache.new false) ⟨[4]⟩ [5] (by decide) (by decide)).2
      rfl rfl).2⟩

section EvictionLemmas

lemma getElem_mem_drop {α : Type} :
    ∀ (l : List α) (m i : Nat) (hi : i < l.length), m ≤ i → l[i] ∈ l.drop m := by
  intro l
  induction l with
  | nil => intro m i hi _; simp at hi
  | cons a t ih =>
    intro m i hi hmi
    cases m with
    | zero => exact List.getElem_mem hi
    | succ m2 =>
      cases i with
      | zero => omega
      | succ j =>
        rw [List.getElem_cons_succ, List.drop_succ_cons]
        exact ih m2 j (by simpa using hi) (by omega)

lemma getElem_mem_take {α : Type} :
    ∀ (l : List α) (m i : Nat) (hi : i < l.length), i < m → l[i] ∈ l.take m := by
  intro l
  induction l with
  | nil => intro m i hi _; simp at hi
  | cons a t ih =>
    intro m i hi him
    cases m with
    | zero => omega
    | succ m2 =>
      cases i with
      | zero => rw [List.take_succ_cons]; exact List.mem_cons_self _ _
      | succ j =>
        rw [List.getElem_cons_succ, List.take_succ_cons]
        exact List.mem_cons_of_mem _ (ih m2 j (by simpa using hi) (by omega))

lemma take_reverse_eq_reverse_drop {α : Type} (l : List α) (cap : Nat)
    (hover : cap ≤ l.length) :
    List.take cap l.reverse = (l.drop (l.length - cap)).reverse := by
  calc List.take cap l.reverse
      = List.take cap
          ((l.take (l.length - cap) ++ l.drop (l.length - cap)).reverse) := by
        rw [List.take_append_drop]
    _ = List.take cap ((l.drop (l.length - cap)).reverse
          ++ (l.take (l.length - cap)).reverse) := by
        rw [List.reverse_append]
    _ = (l.drop (l.length - cap)).reverse := by
        apply List.take_left'
        rw [List.length_reverse, List.length_drop]
        omega

lemma runPuts_eq :
    ∀ (ps : List (CryptoHash × Bytes)) (c : TrieCache),
      c.cache_state = CacheState.CachingShard →
      c.chunk_cache = [] →
      c.shard_cache.length ≤ c.cap →
      (ps.map Prod.fst).Nodup →
      (∀ p ∈ ps, p.2.length < TRIE_LIMIT_CACHED_VALUE_SIZE) →
      (∀ p ∈ ps, lookupA c.shard_cache p.1 = none) →
      runPuts c ps
        = { c with shard_cache := List.take c.cap (ps.reverse ++ c.shard_cache) } := by
  intro ps
  induction ps with
  | nil =>
    intro c h1 h2 h3 _ _ _
    rw [runPuts, List.foldl_nil, List.reverse_nil, List.nil_append,
      List.take_of_length_le h3]
  | cons p r ih =>
    intro c h1 h2 h3 hnd hsmall hfresh
    obtain ⟨h0, v0⟩ := p
    rw [List.map_cons, List.nodup_cons] at hnd
    have hput : c.put h0 v0
        = { c with shard_cache := List.take c.cap ((h0, v0) :: c.shard_cache) } := by
      rw [put_shard_fresh c h0 v0 (hsmall _ (List.mem_cons_self _ _)) h1
          (by rw [h2]; rfl),
        lru_put, removeA_eq_self _ _ (hfresh _ (List.mem_cons_self _ _))]
    have hstep : runPuts c ((h0, v0) :: r) = runPuts (c.put h0 v0) r := rfl
    have hrec := ih { c with shard_cache := List.take c.cap ((h0, v0) :: c.shard_cache) }
      h1 h2
      (by rw [List.length_take]; exact min_le_left _ _)
      hnd.2
      (fun q hq => hsmall q (List.mem_cons_of_mem _ hq))
      (fun q hq => by
        apply lookupA_take_none
        rw [lookupA_cons]
        have hne : h0 ≠ q.1 := by
          intro hh
          apply hnd.1
          rw [hh]
          exact List.mem_map.mpr ⟨q, hq, rfl⟩
        rw [if_neg hne]
        exact hfresh q (List.mem_cons_of_mem _ hq))
    rw [hstep, hput, hrec]
    have hsh : List.take c.cap (r.reverse ++ List.take c.cap ((h0, v0) :: c.shard_cache))
        = List.take c.cap (((h0, v0) :: r).reverse ++ c.shard_cache) := by
      rw [take_append_take ((h0, v0) :: c.shard_cache) c.cap r.reverse c.cap le_rfl,
        List.reverse_cons, List.append_assoc, List.singleton_append]
    rw [hsh]

end EvictionLemmas

/-- C9: LRU eviction — putting more than `cap` distinct small payloads into
a fresh `CachingShard`-mode cache (no chunk-tier activity) leaves exactly
the `cap` most recently inserted entries resolvable with full cost; every
earlier entry is absent. -/
theorem lru_eviction (c : TrieCache) (ps : List (CryptoHash × Bytes))
    (hstate : c.cache_state = CacheState.CachingShard)
    (hchunk : c.chunk_cache = []) (hshard : c.shard_cache = [])
    (hnodup : (ps.map Prod.fst).Nodup)
    (hsmall : ∀ p ∈ ps, p.2.length < TRIE_LIMIT_CACHED_VALUE_SIZE)
    (hover : c.cap < ps.length) :
    ∀ i (hi : i < ps.length),
      (ps.length ≤ i + c.cap →
        ((runPuts c ps).chargeable_get ps[i].1).1
          = (some ps[i].2, RetrievalCost.Full))
      ∧ (i + c.cap < ps.length →
        ((runPuts c ps).chargeable_get ps[i].1).1
          = (none, RetrievalCost.Full)) := by
  have hrun : runPuts c ps = { c with shard_cache := List.take c.cap ps.reverse } := by
    have := runPuts_eq ps c hstate hchunk (by rw [hshard]; exact Nat.zero_le _) hnodup
      hsmall (fun p _ => by rw [hshard]; rfl)
    rwa [hshard, List.append_nil] at this
  have hSnodup : ((List.take c.cap ps.reverse).map Prod.fst).Nodup := by
    rw [List.map_take, List.map_reverse]
    exact ((List.nodup_reverse.mpr hnodup).sublist (List.take_sublist _ _))
  intro i hi
  rw [hrun]
  have hchunkS : lookupA ({ c with shard_cache := List.take c.cap ps.reverse
      } : TrieCache).chunk_cache ps[i].1 = none := by
    show lookupA c.chunk_cache ps[i].1 = none
    rw [hchunk]
    rfl
  have hmode : ({ c with shard_cache := List.take c.cap ps.reverse
      } : TrieCache).cache_state = CacheState.CachingShard := hstate
  constructor
  · intro hle
    have hmem : ps[i] ∈ List.take c.cap ps.reverse := by
      rw [take_reverse_eq_reverse_drop ps c.cap (le_of_lt hover)]
      exact List.mem_reverse.mpr
        (getElem_mem_drop ps (ps.length - c.cap) i hi (by omega))
    have hlook : lookupA (List.take c.cap ps.reverse) ps[i].1 = some ps[i].2 := by
      apply lookupA_eq_some_of_mem _ _ _ hSnodup
      exact hmem
    rw [chargeable_get_shard_keep _ ps[i].1 ps[i].2 hmode hchunkS hlook]
  · intro hlt
    have hnotmem : lookupA (List.take c.cap ps.reverse) ps[i].1 = none := by
      rw [lookupA_eq_none_iff]
      intro hmem
      rw [List.map_take, List.map_reverse,
        take_reverse_eq_reverse_drop (List.map Prod.fst ps) c.cap
          (by rw [List.length_map]; omega),
        List.mem_reverse, List.length_map] at hmem
      have htak : ps[i].1 ∈ (List.map Prod.fst ps).take (ps.length - c.cap) := by
        have h2 := getElem_mem_take (List.map Prod.fst ps) (ps.length - c.cap) i
          (by rw [List.length_map]; exact hi) (by omega)
        rwa [List.getElem_map] at h2
      have hsplit : ((List.map Prod.fst ps).take (ps.length - c.cap)
          ++ (List.map Prod.fst ps).drop (ps.length - c.cap)).Nodup := by
        rw [List.take_append_drop]
        exact hnodup
      exact (List.nodup_append.mp hsplit).2.2 htak hmem
    rw [chargeable_get_absent _ ps[i].1 hchunkS hnotmem]

/-- Witness for C9: capacity 1 (the `no_cache` configuration), two distinct
puts — the first entry is evicted, the second remains resolvable. -/
theorem lru_eviction_witness :
    ((TrieCache.new true).cache_state = CacheState.CachingShard)
    ∧ (((runPuts (TrieCache.new true) [(⟨[1]⟩, [1]), (⟨[2]⟩, [2])]).chargeable_get
        ⟨[1]⟩).1 = (none, RetrievalCost.Full))
    ∧ (((runPuts (TrieCache.new true) [(⟨[1]⟩, [1]), (⟨[2]⟩, [2])]).chargeable_get
        ⟨[2]⟩).1 = (some [2], RetrievalCost.Full)) :=
  ⟨rfl,
   ((lru_eviction (TrieCache.new true) [(⟨[1]⟩, [1]), (⟨[2]⟩, [2])] rfl rfl rfl
      (by decide) (by decide) (by decide)) 0 (by decide)).2 (by decide),
   ((lru_eviction (TrieCache.new true) [(⟨[1]⟩, [1]), (⟨[2]⟩, [2])] rfl rfl rfl
      (by decide) (by decide) (by decide)) 1 (by decide)).1 (by decide)⟩
